import Mathlib

/-!
Verification of the repository against its natural-language specification.

The development shallowly embeds the Go sources:
  - `Ezp` embeds `src/pow/ezp/pow.go` (legacy mining engine).
  - `SwarmChunk` embeds `src/swarm/chunk/chunk.go` (chunk store, proximity).
  - `Whisper` embeds the filter engine of `src/unnamed/part_002`.
  - `Bzz` embeds the storage wire protocol session of `src/swarm/pss/types.go`.
  - `Signer` embeds the signing endpoint of `src/unnamed/part_001`.
  - `StateSync` models the state tree synchronizer from the specification
    (its implementation is not among the sources; only its tests are).

Machine bytes are modelled as `Nat` values below 256, byte strings as
`List Nat`, big integers as `Nat`, and Go errors as `Except` or `Option`.
-/

namespace Ezp

/-- One step list of the loop of `binary.PutUvarint`: emit 7 bits per byte,
low group first, with the continuation bit set on all but the last byte.
The fuel bounds the number of emitted bytes; 10 suffices for any `uint64`. -/
def uvarintGo : Nat → Nat → List Nat
  | _, 0 => []
  | x, fuel + 1 =>
    if x < 128 then [x] else (x % 128 + 128) :: uvarintGo (x / 128) fuel

/-- Embeds `binary.PutUvarint(nonce_buf, nonce)` for the 8 byte buffer
`nonce_buf := make([]byte, 8)` of `verify`: the buffer keeps length 8 and
the bytes after the varint stay zero.  Writing a varint longer than 8
bytes overruns the buffer, which panics in Go; this is modelled by `none`. -/
def putUvarint8 (x : Nat) : Option (List Nat) :=
  let bs := uvarintGo (x % 2 ^ 64) 10
  if bs.length ≤ 8 then some (bs ++ List.replicate (8 - bs.length) 0) else none

/-- Embeds `ethutil.BigD`: big-endian bytes read as an integer. -/
def bigD (bs : List Nat) : Nat := bs.foldl (fun acc b => acc * 256 + b % 256) 0

/-- Embeds `verify(hash, diff, nonce)` of `src/pow/ezp/pow.go`.
`keccak` stands for the external Keccak-256 primitive (32 byte digest).
`none` models a panic: either the varint buffer overrun inside
`binary.PutUvarint`, or the `big.Int` division by a zero difficulty. -/
def verify (keccak : List Nat → List Nat) (hash : List Nat) (diff nonce : Nat) :
    Option Bool :=
  match putUvarint8 nonce with
  | none => none
  | some nonceBuf =>
    if diff = 0 then none
    else
      let verification := 2 ^ 256 / diff
      let res := bigD (keccak (hash ++ nonceBuf))
      some (decide (res ≤ verification))

theorem uvarintGo_length_le :
    ∀ (k x fuel : Nat), 0 < k → k ≤ fuel → x < 128 ^ k →
      (uvarintGo x fuel).length ≤ k := by
  intro k
  induction k with
  | zero => intro x fuel h; omega
  | succ k ih =>
    intro x fuel _ hfuel hx
    match fuel, hfuel with
    | fuel + 1, _ =>
      show (uvarintGo x (fuel + 1)).length ≤ k + 1
      rw [uvarintGo]
      by_cases hsmall : x < 128
      · simp [hsmall]
      · simp only [hsmall, if_false, List.length_cons]
        have hk : 0 < k := by
          by_contra hk0
          have : k = 0 := by omega
          subst this
          simp [pow_one] at hx
          omega
        have hdiv : x / 128 < 128 ^ k := by
          have h128 : (0:Nat) < 128 := by norm_num
          rw [Nat.div_lt_iff_lt_mul h128]
          calc x < 128 ^ (k + 1) := hx
            _ = 128 ^ k * 128 := by rw [pow_succ]
        have := ih (x / 128) fuel hk (by omega) hdiv
        omega

theorem putUvarint8_of_lt (x : Nat) (hx : x < 2 ^ 56) :
    ∃ buf, putUvarint8 x = some buf := by
  have hmod : x % 2 ^ 64 = x := Nat.mod_eq_of_lt (by
    have : (2:Nat) ^ 56 ≤ 2 ^ 64 := Nat.pow_le_pow_right (by norm_num) (by norm_num)
    omega)
  have hxb : x < 128 ^ 8 := by
    have : (128:Nat) ^ 8 = 2 ^ 56 := by norm_num
    omega
  have hlen : (uvarintGo x 10).length ≤ 8 :=
    uvarintGo_length_le 8 x 10 (by norm_num) (by norm_num) hxb
  refine ⟨uvarintGo x 10 ++ List.replicate (8 - (uvarintGo x 10).length) 0, ?_⟩
  unfold putUvarint8
  rw [hmod]
  simp [hlen]

theorem uvarintGo_length_ge :
    ∀ (k x fuel : Nat), k < fuel → 128 ^ k ≤ x → k + 1 ≤ (uvarintGo x fuel).length := by
  intro k
  induction k with
  | zero =>
    intro x fuel hfuel hx
    match fuel, hfuel with
    | fuel + 1, _ =>
      rw [uvarintGo]
      by_cases hsmall : x < 128 <;> simp [hsmall]
  | succ k ih =>
    intro x fuel hfuel hx
    match fuel, hfuel with
    | fuel + 1, _ =>
      rw [uvarintGo]
      have hsmall : ¬ x < 128 := by
        have hone : (128:Nat) ≤ 128 ^ (k + 1) := by
          calc (128:Nat) = 128 ^ 1 := (pow_one 128).symm
            _ ≤ 128 ^ (k + 1) := Nat.pow_le_pow_right (by norm_num) (by omega)
        omega
      simp only [hsmall, if_false, List.length_cons]
      have hdivge : 128 ^ k ≤ x / 128 := by
        rw [Nat.le_div_iff_mul_le (by norm_num : (0:Nat) < 128)]
        calc 128 ^ k * 128 = 128 ^ (k + 1) := (pow_succ 128 k).symm
          _ ≤ x := hx
      have := ih (x / 128) fuel (by omega) hdivge
      omega

/-- The varint encoding of `2 ^ 56` needs 9 bytes: `PutUvarint` overruns
the 8 byte nonce buffer there (a panic in Go, `none` in the model). -/
theorem putUvarint8_overrun : putUvarint8 (2 ^ 56) = none := by
  have hmod : (2:Nat) ^ 56 % 2 ^ 64 = 2 ^ 56 := by norm_num
  have hge : (128:Nat) ^ 8 ≤ 2 ^ 56 := by norm_num
  have hlong := uvarintGo_length_ge 8 (2 ^ 56) 10 (by norm_num) hge
  unfold putUvarint8
  rw [hmod]
  have hlen : ¬ (uvarintGo (2 ^ 56) 10).length ≤ 8 := by omega
  simp [hlen]
  norm_num at hlong
  omega

end Ezp

/-- C9: the claim states that `verify` is total for every 64-bit nonce,
including nonces at least `2 ^ 56`.  It is false: at nonce `2 ^ 56` the
varint encoding needs 9 bytes, `binary.PutUvarint` overruns the 8 byte
buffer, and `verify` panics instead of returning a boolean. -/
theorem c9_counterexample :
    Ezp.putUvarint8 (2 ^ 56) = none ∧
      Ezp.verify (fun _ => []) [] 1 (2 ^ 56) = none := by
  refine ⟨Ezp.putUvarint8_overrun, ?_⟩
  unfold Ezp.verify
  rw [Ezp.putUvarint8_overrun]

/-- C9 (amended): `verify` is total exactly on nonces below `2 ^ 56` (with a
positive difficulty): there `PutUvarint` fits the 8 byte buffer and `verify`
returns a boolean. -/
theorem c9_total_below (keccak : List Nat → List Nat) (hash : List Nat)
    (diff nonce : Nat) (hd : 0 < diff) (hn : nonce < 2 ^ 56) :
    ∃ b, Ezp.verify keccak hash diff nonce = some b := by
  obtain ⟨buf, hbuf⟩ := Ezp.putUvarint8_of_lt nonce hn
  refine ⟨decide (Ezp.bigD (keccak (hash ++ buf)) ≤ 2 ^ 256 / diff), ?_⟩
  unfold Ezp.verify
  rw [hbuf]
  have : ¬ diff = 0 := by omega
  simp [this]

/-- C9 amended witness at difficulty 1 and nonce 3. -/
theorem c9_total_below_witness :
    0 < 1 ∧ (3:Nat) < 2 ^ 56 ∧
      ∃ b, Ezp.verify (fun _ => []) [] 1 3 = some b :=
  ⟨by decide, by norm_num,
    c9_total_below (fun _ => []) [] 1 3 (by decide) (by norm_num)⟩

/-- C2: as stated the claim quantifies over every 64-bit nonce; it fails at
nonce `2 ^ 56` where `verify` panics (returns no boolean) although the
Keccak value bound holds, so "accepts iff value at most `2 ^ 256 / D`" is
violated.  Stated with the constant-`[]` Keccak oracle, an empty hash and
difficulty 1. -/
theorem c2_counterexample :
    Ezp.verify (fun _ => []) [] 1 (2 ^ 56) ≠ some true ∧
      Ezp.bigD ((fun (_ : List Nat) => ([] : List Nat))
        (([] : List Nat) ++ List.replicate 8 0)) ≤ 2 ^ 256 / 1 := by
  constructor
  · unfold Ezp.verify
    rw [Ezp.putUvarint8_overrun]
    intro h
    exact Option.noConfusion h
  · simp [Ezp.bigD]

/-- C2 (amended): for every Keccak oracle, header hash, difficulty `D > 0`
and nonce below `2 ^ 56`, `verify` accepts exactly when the integer value of
the Keccak digest of the hash concatenated with the 8 byte nonce buffer is
at most `2 ^ 256 / D` (integer division). -/
theorem c2_verify_iff (keccak : List Nat → List Nat) (hash : List Nat)
    (diff nonce : Nat) (hd : 0 < diff) (hn : nonce < 2 ^ 56) :
    ∃ buf, Ezp.putUvarint8 nonce = some buf ∧
      (Ezp.verify keccak hash diff nonce = some true ↔
        Ezp.bigD (keccak (hash ++ buf)) ≤ 2 ^ 256 / diff) := by
  obtain ⟨buf, hbuf⟩ := Ezp.putUvarint8_of_lt nonce hn
  refine ⟨buf, hbuf, ?_⟩
  unfold Ezp.verify
  rw [hbuf]
  have hdz : ¬ diff = 0 := by omega
  simp [hdz]

/-- C2 amended witness: difficulty 1, nonce 3, constant-`[]` oracle. -/
theorem c2_verify_iff_witness :
    0 < 1 ∧ (3:Nat) < 2 ^ 56 ∧
      ∃ buf, Ezp.putUvarint8 3 = some buf ∧
        (Ezp.verify (fun _ => []) [] 1 3 = some true ↔
          Ezp.bigD (([] : List Nat)) ≤ 2 ^ 256 / 1) :=
  ⟨by decide, by norm_num, c2_verify_iff (fun _ => []) [] 1 3 (by decide) (by norm_num)⟩

namespace SwarmChunk

/-- Constant `MaxPO` of `src/swarm/chunk/chunk.go`. -/
def maxPO : Nat := 16

/-- Embeds the inner loop of `Proximity`: the position of the first set bit
of a byte, scanned from the most significant bit (`j` runs over `0..7`,
testing bit `7 - j`). -/
def bytePO (oxo : Nat) : Option Nat :=
  (List.range 8).find? (fun j => (oxo >>> (7 - j)) % 2 == 1)

/-- Embeds the outer loop of `Proximity`: scan bytes from index `i`, with
`fuel` bytes left to scan, returning the bit position of the first
difference. -/
def proxScan (one other : List Nat) : Nat → Nat → Option Nat
  | _, 0 => none
  | i, fuel + 1 =>
    match bytePO ((one.getD i 0) ^^^ (other.getD i 0)) with
    | some j => some (i * 8 + j)
    | none => proxScan one other (i + 1) fuel

/-- Embeds `Proximity(one, other)` of `src/swarm/chunk/chunk.go`:
`b := (MaxPO-1)/8 + 1` clipped to `len(one)`; the first differing bit
position wins, else `MaxPO`. -/
def Proximity (one other : List Nat) : Nat :=
  (proxScan one other 0 (min ((maxPO - 1) / 8 + 1) one.length)).getD maxPO

/-- Flips the most significant bit of byte 0. -/
def flipTopBit : List Nat → List Nat
  | [] => []
  | b :: rest => (b ^^^ 128) :: rest

theorem proxScan_self (x : List Nat) : ∀ i fuel, proxScan x x i fuel = none := by
  intro i fuel
  induction fuel generalizing i with
  | zero => rfl
  | succ fuel ih =>
    rw [proxScan]
    have hz : (x.getD i 0) ^^^ (x.getD i 0) = 0 := Nat.xor_self _
    rw [hz]
    have : bytePO 0 = none := by decide
    rw [this]
    exact ih (i + 1)

theorem proxScan_comm (x y : List Nat) :
    ∀ i fuel, proxScan x y i fuel = proxScan y x i fuel := by
  intro i fuel
  induction fuel generalizing i with
  | zero => rfl
  | succ fuel ih =>
    rw [proxScan, proxScan, Nat.xor_comm]
    cases bytePO ((y.getD i 0) ^^^ (x.getD i 0)) with
    | none => exact ih (i + 1)
    | some j => rfl

theorem proximity_self (x : List Nat) : Proximity x x = maxPO := by
  unfold Proximity
  rw [proxScan_self]
  rfl

end SwarmChunk

/-- C4: the claim states `Proximity(x, x) = 256` for identical addresses.
It is false on the code: the scan window is capped at `MaxPO = 16`, so two
identical 32-byte addresses have proximity 16, not 256. -/
theorem c4_counterexample :
    SwarmChunk.Proximity (List.replicate 32 0) (List.replicate 32 0) = 16 ∧
      SwarmChunk.Proximity (List.replicate 32 0) (List.replicate 32 0) ≠ 256 := by
  constructor
  · exact SwarmChunk.proximity_self _
  · rw [SwarmChunk.proximity_self]
    decide

/-- C4 (amended): for every address `x`, `Proximity(x, x) = MaxPO = 16`:
the proximity order is capped at the 16-bit window, and 16 (not 256) is the
value returned for identical addresses. -/
theorem c4_proximity_self_eq_maxPO (x : List Nat) :
    SwarmChunk.Proximity x x = 16 :=
  SwarmChunk.proximity_self x

/-- C5: for equal-length addresses, `Proximity(x, x) = 16`, `Proximity` is
symmetric, and flipping the most significant bit of byte 0 gives
proximity 0. -/
theorem c5_proximity_algebra (x y : List Nat) :
    SwarmChunk.Proximity x x = 16 ∧
      (x.length = y.length →
        SwarmChunk.Proximity x y = SwarmChunk.Proximity y x) ∧
      (0 < x.length →
        SwarmChunk.Proximity x (SwarmChunk.flipTopBit x) = 0) := by
  refine ⟨SwarmChunk.proximity_self x, ?_, ?_⟩
  · intro hlen
    unfold SwarmChunk.Proximity
    rw [hlen, SwarmChunk.proxScan_comm]
  · intro hpos
    match x, hpos with
    | b :: rest, _ =>
      unfold SwarmChunk.Proximity SwarmChunk.flipTopBit
      have hb : min ((SwarmChunk.maxPO - 1) / 8 + 1) (b :: rest).length
          = (min 1 rest.length) + 1 := by
        simp only [List.length_cons, SwarmChunk.maxPO]
        omega
      rw [hb, SwarmChunk.proxScan]
      have hoxo : ((b :: rest).getD 0 0) ^^^
          (((b ^^^ 128) :: rest).getD 0 0) = 128 := by
        simp only [List.getD_cons_zero]
        rw [← Nat.xor_assoc, Nat.xor_self, Nat.zero_xor]
      rw [hoxo]
      have h128 : SwarmChunk.bytePO 128 = some 0 := by decide
      rw [h128]
      rfl

/-- C5 witness at the concrete addresses `[1, 2]` and `[3, 4]`. -/
theorem c5_proximity_algebra_witness :
    SwarmChunk.Proximity [1, 2] [3, 4] = SwarmChunk.Proximity [3, 4] [1, 2] ∧
      SwarmChunk.Proximity [1, 2] (SwarmChunk.flipTopBit [1, 2]) = 0 :=
  ⟨(c5_proximity_algebra [1, 2] [3, 4]).2.1 rfl,
    (c5_proximity_algebra [1, 2] [3, 4]).2.2 (by decide)⟩

namespace SwarmChunk

/-- Errors of the chunk store of `src/swarm/chunk/chunk.go`. -/
inductive ChunkErr where
  | chunkNotFound
  | chunkInvalid
  deriving DecidableEq

/-- A chunk: an address and a payload, as in `src/swarm/chunk/chunk.go`. -/
structure ChunkM where
  addr : List Nat
  data : List Nat

/-- Embeds `ValidatorStore.Put`: try the validators in order; the first
accepting one delegates to the wrapped store; otherwise the put fails with
the invalid-chunk error.  `innerPut` is the `Put` of the wrapped store. -/
def validatorStorePut (validators : List (ChunkM → Bool))
    (innerPut : ChunkM → Except ChunkErr Unit) (ch : ChunkM) :
    Except ChunkErr Unit :=
  match validators with
  | [] => .error .chunkInvalid
  | v :: vs => if v ch then innerPut ch else validatorStorePut vs innerPut ch

end SwarmChunk

/-- C3: `ValidatorStore.Put` with an empty validator list fails with the
invalid-chunk error regardless of the wrapped store; with at least one
accepting validator it delegates to the wrapped store; and when every
validator rejects it fails with the invalid-chunk error. -/
theorem c3_validator_store_put (validators : List (SwarmChunk.ChunkM → Bool))
    (innerPut : SwarmChunk.ChunkM → Except SwarmChunk.ChunkErr Unit)
    (ch : SwarmChunk.ChunkM) :
    (validators = [] →
      SwarmChunk.validatorStorePut validators innerPut ch =
        .error .chunkInvalid) ∧
    ((∃ v ∈ validators, v ch = true) →
      SwarmChunk.validatorStorePut validators innerPut ch = innerPut ch) ∧
    ((∀ v ∈ validators, v ch = false) →
      SwarmChunk.validatorStorePut validators innerPut ch =
        .error .chunkInvalid) := by
  refine ⟨?_, ?_, ?_⟩
  · intro h
    subst h
    rfl
  · intro h
    induction validators with
    | nil => obtain ⟨v, hv, _⟩ := h; exact absurd hv (List.not_mem_nil v)
    | cons v vs ih =>
      rw [SwarmChunk.validatorStorePut]
      by_cases hacc : v ch
      · simp [hacc]
      · simp only [hacc, if_false]
        apply ih
        obtain ⟨w, hw, hwacc⟩ := h
        rcases List.mem_cons.mp hw with heq | hmem
        · subst heq; exact absurd hwacc (by simpa using hacc)
        · exact ⟨w, hmem, hwacc⟩
  · intro h
    induction validators with
    | nil => rfl
    | cons v vs ih =>
      rw [SwarmChunk.validatorStorePut]
      have hv : v ch = false := h v (List.mem_cons_self v vs)
      simp only [hv, if_false, Bool.false_eq_true]
      exact ih (fun w hw => h w (List.mem_cons_of_mem v hw))

/-- C3 witness on a singleton chunk, with an always-ok wrapped store. -/
theorem c3_validator_store_put_witness :
    (SwarmChunk.validatorStorePut [] (fun _ => Except.ok ()) ⟨[1], [2]⟩ =
      Except.error SwarmChunk.ChunkErr.chunkInvalid) ∧
    (SwarmChunk.validatorStorePut [fun _ => true] (fun _ => Except.ok ())
      ⟨[1], [2]⟩ = Except.ok ()) ∧
    (SwarmChunk.validatorStorePut [fun _ => false] (fun _ => Except.ok ())
      ⟨[1], [2]⟩ = Except.error SwarmChunk.ChunkErr.chunkInvalid) :=
  ⟨(c3_validator_store_put [] (fun _ => Except.ok ()) ⟨[1], [2]⟩).1 rfl,
    (c3_validator_store_put [fun _ => true] (fun _ => Except.ok ())
      ⟨[1], [2]⟩).2.1 ⟨fun _ => true, List.mem_singleton.mpr rfl, rfl⟩,
    (c3_validator_store_put [fun _ => false] (fun _ => Except.ok ())
      ⟨[1], [2]⟩).2.2 (by
        intro v hv
        rw [List.mem_singleton] at hv
        subst hv
        rfl)⟩

namespace Whisper

/-- A public key point, standing for `ecdsa.PublicKey` (curve fixed). -/
structure WPubKey where
  x : Int
  y : Int
  deriving DecidableEq

/-- Modelled from the spec: the key validity check `validatePublicKey` is
not among the sources; non-nil keys away from the point at zero are taken
as valid. -/
def validatePublicKey : Option WPubKey → Bool
  | none => false
  | some k => !(k.x == 0 && k.y == 0)

/-- Embeds `isEqual(a, b)` of `src/unnamed/part_002`: both keys validate
and their points coincide. -/
def isEqualKeys (a b : Option WPubKey) : Bool :=
  if !validatePublicKey a then false
  else if !validatePublicKey b then false
  else
    match a, b with
    | some ka, some kb => ka.x == kb.x && ka.y == kb.y
    | _, _ => false

/-- A received message, as used by `Filter.MatchMessage`.  The fields
`symEnc`/`asymEnc` model the accessors `isSymmetricEncryption` and
`isAsymmetricEncryption`, which are not among the sources. -/
structure RMsg where
  src : Option WPubKey
  dst : Option WPubKey
  topic : Nat
  topicKeyHash : Nat
  pow : Rat
  symEnc : Bool
  asymEnc : Bool

/-- The `Filter` record of `src/unnamed/part_002` (matching criteria only;
the mailbox is not needed for the matching claims). -/
structure WFilter where
  Src : Option WPubKey
  Dst : Option WPubKey
  KeyAsym : Option Nat
  Topics : List Nat
  KeySym : Option (List Nat)
  TopicKeyHash : Nat
  PoW : Rat

/-- Embeds `Filter.expectsAsymmetricEncryption`. -/
def expectsAsymmetricEncryption (f : WFilter) : Bool := f.KeyAsym.isSome

/-- Embeds `Filter.expectsSymmetricEncryption`. -/
def expectsSymmetricEncryption (f : WFilter) : Bool := f.KeySym.isSome

/-- Embeds `Filter.MatchMessage` of `src/unnamed/part_002`. -/
def MatchMessage (f : WFilter) (m : RMsg) : Bool :=
  if f.PoW > 0 && decide (m.pow < f.PoW) then false
  else if f.Src.isSome && !isEqualKeys m.src f.Src then false
  else if expectsAsymmetricEncryption f && m.asymEnc then
    isEqualKeys f.Dst m.dst
  else if expectsSymmetricEncryption f && m.symEnc then
    if f.TopicKeyHash == m.topicKeyHash then f.Topics.contains m.topic
    else false
  else false

end Whisper

/-- C6: a symmetric filter (symmetric key set, no asymmetric key) with topic
set `{t1, t2}` and topic-key-hash `h` matches a symmetric message that
passes the proof-of-work and sender criteria exactly when the message
topic-key-hash equals `h` and the message topic is `t1` or `t2`; in
particular a hash match with a non-member topic does not match. -/
theorem c6_symmetric_filter_match (t1 t2 h : Nat) (f : Whisper.WFilter)
    (m : Whisper.RMsg)
    (hsym : f.KeySym.isSome) (hasym : f.KeyAsym = none)
    (htop : f.Topics = [t1, t2]) (hhash : f.TopicKeyHash = h)
    (hpow : ¬(f.PoW > 0 ∧ m.pow < f.PoW))
    (hsrc : f.Src = none ∨ Whisper.isEqualKeys m.src f.Src = true)
    (hmsym : m.symEnc = true) :
    Whisper.MatchMessage f m = true ↔
      (m.topicKeyHash = h ∧ (m.topic = t1 ∨ m.topic = t2)) := by
  unfold Whisper.MatchMessage
  have hpow2 : (f.PoW > 0 && decide (m.pow < f.PoW)) = false := by
    rw [Bool.and_eq_false_iff]
    by_cases h0 : f.PoW > 0
    · right
      simp only [decide_eq_false_iff_not]
      intro hlt
      exact hpow ⟨h0, hlt⟩
    · left
      simpa using h0
  have hsrc2 : (f.Src.isSome && !Whisper.isEqualKeys m.src f.Src) = false := by
    rcases hsrc with hnone | heq
    · rw [hnone]; rfl
    · rw [heq]; simp
  have hasym2 : Whisper.expectsAsymmetricEncryption f = false := by
    rw [Whisper.expectsAsymmetricEncryption, hasym]; rfl
  have hsym2 : Whisper.expectsSymmetricEncryption f = true := by
    rw [Whisper.expectsSymmetricEncryption]
    exact hsym
  rw [hpow2, hsrc2, hasym2, hsym2, hmsym, htop, hhash]
  simp only [Bool.false_and, Bool.true_and, if_false, if_true,
    Bool.false_eq_true]
  by_cases hh : h = m.topicKeyHash
  · subst hh
    have hmem : ([t1, t2].contains m.topic = true) ↔ m.topic ∈ [t1, t2] :=
      List.elem_iff
    simp only [beq_self_eq_true, if_true, hmem]
    simp [List.mem_cons]
  · have : (h == m.topicKeyHash) = false := by
      simp [hh]
    rw [this]
    simp only [if_false, Bool.false_eq_true, false_iff]
    intro hc
    exact hh hc.1.symm

/-- C6 witness: a concrete symmetric filter and a matching message. -/
theorem c6_symmetric_filter_match_witness :
    Whisper.MatchMessage
      ⟨none, none, none, [7, 8], some [1], 42, 0⟩
      ⟨none, none, 7, 42, 1, true, false⟩ = true ↔
      ((42:Nat) = 42 ∧ ((7:Nat) = 7 ∨ (7:Nat) = 8)) :=
  c6_symmetric_filter_match 7 8 42
    ⟨none, none, none, [7, 8], some [1], 42, 0⟩
    ⟨none, none, 7, 42, 1, true, false⟩
    (by decide) rfl rfl rfl
    (by
      intro hcon
      exact absurd hcon.1 (by norm_num))
    (Or.inl rfl) rfl

namespace Signer

/-- Value of one hexadecimal character, as in `encoding/hex`. -/
def hexCharVal (c : Char) : Option Nat :=
  if c.toNat ≥ 48 && c.toNat ≤ 57 then some (c.toNat - 48)
  else if c.toNat ≥ 97 && c.toNat ≤ 102 then some (c.toNat - 97 + 10)
  else if c.toNat ≥ 65 && c.toNat ≤ 70 then some (c.toNat - 65 + 10)
  else none

/-- Embeds `hex.Decode` as used through `common.Hex2Bytes`: decode byte
pairs and stop at the first malformed pair, keeping the bytes decoded so
far (the error is discarded by `Hex2Bytes`). -/
def hexDecodePairs : List Char → List Nat
  | c1 :: c2 :: rest =>
    match hexCharVal c1, hexCharVal c2 with
    | some a, some b => (16 * a + b) :: hexDecodePairs rest
    | _, _ => []
  | _ => []

/-- Embeds `common.Hex2Bytes`. -/
def hex2Bytes (s : String) : List Nat := hexDecodePairs s.toList

/-- The typed-data request: only the optional `hash` field is decoded
(`src/unnamed/part_001`). -/
structure TypedDataM where
  hash : Option Nat

/-- Embeds `SignerAPI.SignStructuredData` of `src/unnamed/part_001`: the
input is only logged; the returned bytes are the fixed
`common.Hex2Bytes("0xdeadbeef")` value with a nil error. -/
def SignStructuredData (_addr : Nat) (_data : TypedDataM) :
    Except String (List Nat) :=
  Except.ok (hex2Bytes "0xdeadbeef")

end Signer

/-- C8: `SignStructuredData` returns the fixed placeholder byte sequence
with a nil error for every address and typed-data input: the result is
independent of both arguments.  (The placeholder is
`common.Hex2Bytes("0xdeadbeef")`, which decodes to the empty byte string
because of the `0x` prefix.) -/
theorem c8_sign_structured_data_stub :
    ∀ (a1 a2 : Nat) (d1 d2 : Signer.TypedDataM),
      Signer.SignStructuredData a1 d1 =
          Except.ok (Signer.hex2Bytes "0xdeadbeef") ∧
        Signer.SignStructuredData a1 d1 = Signer.SignStructuredData a2 d2 ∧
        Signer.hex2Bytes "0xdeadbeef" = [] := by
  intro a1 a2 d1 d2
  exact ⟨rfl, rfl, rfl⟩

namespace Bzz

/-- Constant `ProtocolMaxMsgSize` of the bzz protocol
(`src/swarm/pss/types.go`, network part): 10 MiB. -/
def protocolMaxMsgSize : Nat := 10 * 1024 * 1024

/-- Modelled from the spec: the message codes of the bzz dispatch table
are not among the sources (only the handlers are); the spec fixes a
message-code space of length 8 in the dispatch-table order. -/
def statusMsgCode : Nat := 0
def storeRequestMsgCode : Nat := 1
def retrieveRequestMsgCode : Nat := 2
def peersMsgCode : Nat := 3
def syncRequestMsgCode : Nat := 4
def unsyncedKeysMsgCode : Nat := 5
def deliveryRequestMsgCode : Nat := 6
def paymentMsgCode : Nat := 7

/-- The sync state carried by a sync-request message. -/
structure SyncStateM where
  start : List Nat
  stop : List Nat
  sessionAt : Nat
  synced : Bool

/-- Session errors of the bzz handle cycle. -/
inductive BzzErr where
  | msgTooLong (size : Nat)
  | extraStatus
  | decodeErr
  | dataTooShort (n : Nat)
  | missingKey
  | invalidCode (code : Nat)
  | syncOnce
  deriving DecidableEq

/-- Decoded payload of an incoming message; `badP` stands for a body the
RLP decoder rejects for the given code. -/
inductive PayloadM where
  | statusP
  | storeP (sdata : List Nat)
  | retrieveP (isLookup : Bool) (hasKey : Bool)
  | peersP
  | syncP (state : Option SyncStateM)
  | unsyncedP
  | deliveryP
  | paymentP (units : Nat)
  | badP

/-- An incoming message: code, declared size, decoded body. -/
structure InMsg where
  code : Nat
  size : Nat
  payload : PayloadM

/-- Delegations performed by the handle cycle, in order. -/
inductive DispatchEv where
  | storeHandler
  | retrieveHandler
  | hivePeersResponse
  | hiveHandlePeers
  | unsyncedHandler
  | deliveryHandler
  | swapReceive (units : Nat)
  deriving DecidableEq

/-- Per-connection session state of `bzz` (the fields the claims need). -/
structure BzzSession where
  syncer : Option SyncStateM
  syncEnabled : Bool
  swapEnabled : Bool

/-- External collaborators of the handle cycle: results of the storage
handlers, the database sync counter, the key range of the routing table,
and whether `newSyncer` construction succeeds. -/
structure ExtCollab where
  unsyncedErr : Option BzzErr
  deliveryErr : Option BzzErr
  cnt : Nat
  kadStart : List Nat
  kadStop : List Nat
  newSyncerOk : Bool

/-- Embeds `storage.IsZeroKey` (not among the sources): an empty or
all-zero key. -/
def isZeroKey (k : List Nat) : Bool := k.isEmpty || k.all (· == 0)

/-- Embeds `bzz.sync(state)` of `src/swarm/pss/types.go` (network part):
fails only when a syncer sub-session already exists; a nil sync state
disables syncing and substitutes a synthesized already-synced state; a
failure of `newSyncer` is swallowed (`return nil`), leaving the session
without a syncer. -/
def bzzSync (ext : ExtCollab) (st : BzzSession) (state : Option SyncStateM) :
    Option BzzErr × BzzSession :=
  if st.syncer.isSome then (some .syncOnce, st)
  else
    let stEnabled :=
      match state with
      | none => { st with syncEnabled := false }
      | some _ => st
    let state1 : SyncStateM :=
      match state with
      | none => { start := [], stop := [], sessionAt := 0, synced := true }
      | some s =>
        let s1 := { s with sessionAt := ext.cnt }
        if isZeroKey s1.stop && s1.synced then
          { s1 with start := ext.kadStart, stop := ext.kadStop }
        else s1
    if ext.newSyncerOk then (none, { stEnabled with syncer := some state1 })
    else (none, stEnabled)

/-- Embeds one cycle of `bzz.handle()` after the handshake: the size check
runs before the dispatch switch; each branch decodes its payload and
either errors (terminating the session) or returns the new session state
together with the handler delegations it performed. -/
def handle (ext : ExtCollab) (st : BzzSession) (m : InMsg) :
    Except BzzErr (BzzSession × List DispatchEv) :=
  if m.size > protocolMaxMsgSize then .error (.msgTooLong m.size)
  else if m.code = statusMsgCode then .error .extraStatus
  else if m.code = storeRequestMsgCode then
    match m.payload with
    | .storeP sdata =>
      if sdata.length < 9 then .error (.dataTooShort sdata.length)
      else .ok (st, [.storeHandler])
    | _ => .error .decodeErr
  else if m.code = retrieveRequestMsgCode then
    match m.payload with
    | .retrieveP isLookup hasKey =>
      if isLookup then .ok (st, [.hivePeersResponse])
      else if !hasKey then .error .missingKey
      else .ok (st, [.retrieveHandler, .hivePeersResponse])
    | _ => .error .decodeErr
  else if m.code = peersMsgCode then
    match m.payload with
    | .peersP => .ok (st, [.hiveHandlePeers])
    | _ => .error .decodeErr
  else if m.code = syncRequestMsgCode then
    match m.payload with
    | .syncP state =>
      let r := bzzSync ext st state
      .ok (r.2, [])
    | _ => .error .decodeErr
  else if m.code = unsyncedKeysMsgCode then
    match m.payload with
    | .unsyncedP =>
      match ext.unsyncedErr with
      | some e => .error e
      | none => .ok (st, [.unsyncedHandler])
    | _ => .error .decodeErr
  else if m.code = deliveryRequestMsgCode then
    match m.payload with
    | .deliveryP =>
      match ext.deliveryErr with
      | some e => .error e
      | none => .ok (st, [.deliveryHandler])
    | _ => .error .decodeErr
  else if m.code = paymentMsgCode then
    if st.swapEnabled then
      match m.payload with
      | .paymentP units => .ok (st, [.swapReceive units])
      | _ => .error .decodeErr
    else .ok (st, [])
  else .error (.invalidCode m.code)

end Bzz

/-- C7: after the handshake, a message whose declared size exceeds 10 MiB
makes the handle cycle return a protocol error immediately, before any
dispatch: the session terminates and no handler (storage, hive, syncer,
swap) receives the message. -/
theorem c7_oversize_terminates (ext : Bzz.ExtCollab) (st : Bzz.BzzSession)
    (m : Bzz.InMsg) (hsize : m.size > Bzz.protocolMaxMsgSize) :
    Bzz.handle ext st m = Except.error (Bzz.BzzErr.msgTooLong m.size) := by
  unfold Bzz.handle
  rw [if_pos hsize]

/-- C7 witness: a store-request message one byte over the limit. -/
theorem c7_oversize_terminates_witness :
    (10 * 1024 * 1024 + 1 : Nat) > Bzz.protocolMaxMsgSize ∧
      Bzz.handle ⟨none, none, 0, [], [], true⟩ ⟨none, true, false⟩
          ⟨1, 10 * 1024 * 1024 + 1, Bzz.PayloadM.storeP [0, 0, 0, 0, 0, 0, 0, 0, 0]⟩ =
        Except.error (Bzz.BzzErr.msgTooLong (10 * 1024 * 1024 + 1)) :=
  ⟨by norm_num [Bzz.protocolMaxMsgSize],
    c7_oversize_terminates ⟨none, none, 0, [], [], true⟩ ⟨none, true, false⟩
      ⟨1, 10 * 1024 * 1024 + 1, Bzz.PayloadM.storeP [0, 0, 0, 0, 0, 0, 0, 0, 0]⟩
      (by norm_num [Bzz.protocolMaxMsgSize])⟩

/-- C10: `bzz.sync` returns a non-nil error exactly when a syncer
sub-session already exists for the connection; and when constructing the
new syncer fails, it returns nil with the session left without a syncer —
the construction failure is never reported. -/
theorem c10_sync_swallows_construction_failure (ext : Bzz.ExtCollab)
    (st : Bzz.BzzSession) (state : Option Bzz.SyncStateM) :
    ((Bzz.bzzSync ext st state).1 = some Bzz.BzzErr.syncOnce ↔
        st.syncer.isSome = true) ∧
      (st.syncer = none → ext.newSyncerOk = false →
        (Bzz.bzzSync ext st state).1 = none ∧
          (Bzz.bzzSync ext st state).2.syncer = none) := by
  constructor
  · constructor
    · intro h
      by_contra hnone
      have hs : st.syncer.isSome = false := by
        cases hval : st.syncer with
        | none => rfl
        | some s => exact absurd (by rw [hval]; rfl) hnone
      unfold Bzz.bzzSync at h
      rw [hs] at h
      simp only [Bool.false_eq_true, if_false] at h
      by_cases hok : ext.newSyncerOk = true <;> simp [hok] at h
    · intro h
      unfold Bzz.bzzSync
      rw [h]
      simp
  · intro hnone hfail
    unfold Bzz.bzzSync
    rw [hnone, hfail]
    cases state <;> simp [hnone]

/-- C10 witness: fresh session, failing syncer construction, nil state. -/
theorem c10_sync_swallows_construction_failure_witness :
    ((Bzz.bzzSync ⟨none, none, 0, [], [], false⟩ ⟨none, true, false⟩ none).1 =
          some Bzz.BzzErr.syncOnce ↔
        (Option.none : Option Bzz.SyncStateM).isSome = true) ∧
      ((Bzz.bzzSync ⟨none, none, 0, [], [], false⟩ ⟨none, true, false⟩ none).1 =
          none ∧
        (Bzz.bzzSync ⟨none, none, 0, [], [], false⟩ ⟨none, true, false⟩
            none).2.syncer = none) :=
  ⟨(c10_sync_swallows_construction_failure ⟨none, none, 0, [], [], false⟩
      ⟨none, true, false⟩ none).1,
    (c10_sync_swallows_construction_failure ⟨none, none, 0, [], [], false⟩
      ⟨none, true, false⟩ none).2 rfl rfl⟩

namespace StateSync

/-- Modelled from the spec: the nodes of the hash-addressed account tree of
section 4.7.  The synchronizer implementation is not among the sources
(only its tests under `src/core/state/sync_test.go` are), so the tree is
modelled abstractly: internal nodes carry child hashes, account leaves
carry balance, nonce and a code-hash reference, and code leaves carry the
code bytes the test accounts compare. -/
inductive STNode where
  | internal (children : List Nat)
  | account (balance nonce codeHash : Nat)
  | code (bytes : List Nat)
  deriving DecidableEq

/-- The child hashes a node reveals once received. -/
def STNode.children : STNode → List Nat
  | .internal cs => cs
  | .account _ _ ch => [ch]
  | .code _ => []

/-- Lookup in an association list keyed by hashes. -/
def findA {α : Type} : List (Nat × α) → Nat → Option α
  | [], _ => none
  | p :: rest, h => if p.1 = h then some p.2 else findA rest h

/-- Key membership test. -/
def hasKeyA {α : Type} (l : List (Nat × α)) (h : Nat) : Bool :=
  (findA l h).isSome

/-- Remove every entry with the given key. -/
def eraseKeyA {α : Type} (l : List (Nat × α)) (h : Nat) : List (Nat × α) :=
  l.filter (fun p => decide (p.1 ≠ h))

/-- Record one more parent on the entry of child `c`. -/
def addParentA (l : List (Nat × List Nat)) (c p : Nat) : List (Nat × List Nat) :=
  l.map (fun q => if q.1 = c then (q.1, p :: q.2) else q)

/-- The all-zero hash (`common.Hash{}`); an origin equal to it means no
origin was supplied. -/
def zeroHash : Nat := 0

/-- Modelled from the spec: stands for the canonical empty-tree hash
(`56e8...b421`), the root of a state with no accounts. -/
def emptyRootHash : Nat := 1

/-- Modelled from the spec (section 4.7): the scheduler state — the known
missing node hashes, each tracked with the hashes of the parents that
revealed it; the destination store contents; and the emitted
parent-reference index entries `(parent, child)`. -/
structure SyncSched where
  requests : List (Nat × List Nat)
  committed : List (Nat × STNode)
  index : List (Nat × Nat)

/-- Modelled from the spec: `NewStateSync(root, dst, origin)`.  An empty
tree needs no sync; otherwise the root is missing, tracked with the origin
as parent when a non-zero origin was supplied. -/
def NewStateSync (root origin : Nat) : SyncSched :=
  if root = emptyRootHash then ⟨[], [], []⟩
  else ⟨[(root, if origin = zeroHash then [] else [origin])], [], []⟩

/-- Modelled from the spec: a received node reveals a child hash.  A child
already resolved gets its index entry immediately; a child in flight gains
one more tracked parent; an unknown child is enqueued as missing. -/
def addChild (h : Nat) (st : SyncSched) (c : Nat) : SyncSched :=
  if hasKeyA st.committed c then { st with index := (h, c) :: st.index }
  else if hasKeyA st.requests c then
    { st with requests := addParentA st.requests c h }
  else { st with requests := (c, [h]) :: st.requests }

/-- Modelled from the spec: commit one validated node — remove its request,
store its bytes, emit one index entry per tracked parent, then process the
child hashes it reveals. -/
def commitNode (st : SyncSched) (h : Nat) (ps : List Nat) (n : STNode) :
    SyncSched :=
  let st1 : SyncSched :=
    { requests := eraseKeyA st.requests h
      committed := (h, n) :: st.committed
      index := ps.map (fun p => (p, h)) ++ st.index }
  n.children.foldl (addChild h) st1

/-- Modelled from the spec: `Process(results)` — validate each result
against its requested hash in order, committing as it goes; on the first
result that is not requested or fails validation, stop and report its
index, keeping the entries already processed. -/
def processResults (hOf : STNode → Nat) :
    SyncSched → List (Nat × STNode) → Nat → Option Nat × SyncSched
  | st, [], _ => (none, st)
  | st, (h, n) :: rest, i =>
    match findA st.requests h with
    | none => (some i, st)
    | some ps =>
      if hOf n = h then processResults hOf (commitNode st h ps n) rest (i + 1)
      else (some i, st)

/-- Modelled from the spec: `Process` entry point. -/
def Process (hOf : STNode → Nat) (st : SyncSched)
    (results : List (Nat × STNode)) : Option Nat × SyncSched :=
  processResults hOf st results 0

/-- Modelled from the spec: `Missing(max)` — up to `max` currently known
missing hashes, all of them when `max = 0`. -/
def Missing (st : SyncSched) (max : Nat) : List Nat :=
  if max = 0 then st.requests.map Prod.fst
  else (st.requests.map Prod.fst).take max

/-- One driver delivery, as in the tests: an arbitrary selection of hashes
is answered from the source store; only currently requested hashes are
delivered (each at most once). -/
def selResults (src : List (Nat × STNode)) (st : SyncSched) (sel : List Nat) :
    List (Nat × STNode) :=
  (sel.dedup.filter (fun h => hasKeyA st.requests h)).filterMap
    (fun h => (findA src h).map (fun n => (h, n)))

/-- One driver iteration: deliver a batch and process it. -/
def driveStep (src : List (Nat × STNode)) (hOf : STNode → Nat)
    (st : SyncSched) (sel : List Nat) : SyncSched :=
  (Process hOf st (selResults src st sel)).2

/-- A whole driver run: any number of batches of any sizes and orders. -/
def runSync (src : List (Nat × STNode)) (hOf : STNode → Nat)
    (root origin : Nat) (sels : List (List Nat)) : SyncSched :=
  sels.foldl (driveStep src hOf) (NewStateSync root origin)

/-- A well-formed source tree: distinct node hashes, hash-addressed
contents (`hOf` gives each stored node its key), child hashes closed under
the store, and a root that is present and is not the empty-tree hash. -/
def srcWF (src : List (Nat × STNode)) (hOf : STNode → Nat) (root : Nat) :
    Prop :=
  (src.map Prod.fst).Nodup ∧
    (∀ p ∈ src, hOf p.2 = p.1) ∧
    (∀ p ∈ src, ∀ c ∈ STNode.children p.2, c ∈ src.map Prod.fst) ∧
    root ∈ src.map Prod.fst ∧ root ≠ emptyRootHash

instance srcWFDecidable (src : List (Nat × STNode)) (hOf : STNode → Nat)
    (root : Nat) : Decidable (srcWF src hOf root) := by
  unfold srcWF
  infer_instance

/-- The nodes reachable from the root through revealed children. -/
inductive Reach (src : List (Nat × STNode)) (root : Nat) : Nat → Prop where
  | base : Reach src root root
  | step {p n c} : Reach src root p → findA src p = some n →
      c ∈ STNode.children n → Reach src root c

/-- Read one account out of a node store: follow the child picked by each
path component down to an account leaf, then fetch its code; yields the
(balance, nonce, code) triple the sync tests compare. -/
def readAccount (store : Nat → Option STNode) :
    List Nat → Nat → Option (Nat × Nat × List Nat)
  | [], h =>
    match store h with
    | some (.account b n ch) =>
      match store ch with
      | some (.code bs) => some (b, n, bs)
      | _ => none
    | _ => none
  | i :: rest, h =>
    match store h with
    | some (.internal cs) =>
      match cs[i]? with
      | some c => readAccount store rest c
      | none => none
    | _ => none

theorem findA_mem {α : Type} {l : List (Nat × α)} {k : Nat} {v : α}
    (h : findA l k = some v) : (k, v) ∈ l := by
  induction l with
  | nil => exact absurd h (by simp [findA])
  | cons p rest ih =>
    rw [findA] at h
    by_cases hk : p.1 = k
    · rw [if_pos hk] at h
      have hv := Option.some.inj h
      have hp : p = (k, v) := Prod.ext hk hv
      rw [← hp]
      exact List.mem_cons_self p rest
    · rw [if_neg hk] at h
      exact List.mem_cons_of_mem p (ih h)

theorem findA_of_mem {α : Type} {l : List (Nat × α)} {k : Nat} {v : α}
    (hnd : (l.map Prod.fst).Nodup) (hm : (k, v) ∈ l) : findA l k = some v := by
  induction l with
  | nil => exact absurd hm (List.not_mem_nil _)
  | cons p rest ih =>
    rw [List.map_cons, List.nodup_cons] at hnd
    rw [findA]
    rcases List.mem_cons.mp hm with heq | hmem
    · rw [← heq]
      simp
    · have hk : p.1 ≠ k := by
        intro hk
        exact hnd.1 (hk ▸ List.mem_map_of_mem Prod.fst hmem)
      rw [if_neg hk]
      exact ih hnd.2 hmem

theorem findA_isSome_iff {α : Type} {l : List (Nat × α)} {k : Nat} :
    (findA l k).isSome = true ↔ k ∈ l.map Prod.fst := by
  induction l with
  | nil => simp [findA]
  | cons p rest ih =>
    rw [findA]
    by_cases hk : p.1 = k
    · simp [hk]
    · rw [if_neg hk]
      simp only [List.map_cons, List.mem_cons]
      rw [ih]
      constructor
      · intro hm; right; exact hm
      · intro hm
        rcases hm with heq | hm
        · exact absurd heq.symm hk
        · exact hm

theorem findA_none_iff {α : Type} {l : List (Nat × α)} {k : Nat} :
    findA l k = none ↔ k ∉ l.map Prod.fst := by
  rw [← findA_isSome_iff]
  cases findA l k <;> simp

theorem hasKeyA_iff {α : Type} {l : List (Nat × α)} {k : Nat} :
    hasKeyA l k = true ↔ k ∈ l.map Prod.fst := by
  rw [hasKeyA, findA_isSome_iff]

theorem hasKeyA_false_iff {α : Type} {l : List (Nat × α)} {k : Nat} :
    hasKeyA l k = false ↔ k ∉ l.map Prod.fst := by
  rw [← hasKeyA_iff]
  cases hasKeyA l k <;> simp

theorem eraseKeyA_mem {α : Type} {l : List (Nat × α)} {h : Nat}
    {q : Nat × α} : q ∈ eraseKeyA l h ↔ q ∈ l ∧ q.1 ≠ h := by
  rw [eraseKeyA, List.mem_filter]
  simp

theorem eraseKeyA_sublist {α : Type} (l : List (Nat × α)) (h : Nat) :
    (eraseKeyA l h).Sublist l := List.filter_sublist l

theorem eraseKeyA_keys_mem {α : Type} {l : List (Nat × α)} {h k : Nat} :
    k ∈ (eraseKeyA l h).map Prod.fst ↔ k ∈ l.map Prod.fst ∧ k ≠ h := by
  constructor
  · intro hk
    obtain ⟨q, hq, hqk⟩ := List.mem_map.mp hk
    obtain ⟨hql, hqh⟩ := eraseKeyA_mem.mp hq
    exact ⟨hqk ▸ List.mem_map_of_mem Prod.fst hql, hqk ▸ hqh⟩
  · intro ⟨hk, hne⟩
    obtain ⟨q, hq, hqk⟩ := List.mem_map.mp hk
    exact hqk ▸ List.mem_map_of_mem Prod.fst
      (eraseKeyA_mem.mpr ⟨hq, hqk ▸ hne⟩)

theorem addParentA_keys (l : List (Nat × List Nat)) (c p : Nat) :
    (addParentA l c p).map Prod.fst = l.map Prod.fst := by
  rw [addParentA, List.map_map]
  apply List.map_congr_left
  intro q _
  by_cases hq : q.1 = c <;> simp [hq]

theorem addParentA_mem_src {l : List (Nat × List Nat)} {c p : Nat}
    {r : Nat × List Nat} (hm : r ∈ addParentA l c p) :
    ∃ r0 ∈ l, r0.1 = r.1 ∧ (r = r0 ∨ (r0.1 = c ∧ r.2 = p :: r0.2)) := by
  rw [addParentA] at hm
  obtain ⟨r0, hr0, heq⟩ := List.mem_map.mp hm
  by_cases hq : r0.1 = c
  · rw [if_pos hq] at heq
    exact ⟨r0, hr0, by rw [← heq], Or.inr ⟨hq, by rw [← heq]⟩⟩
  · rw [if_neg hq] at heq
    exact ⟨r0, hr0, by rw [heq], Or.inl heq.symm⟩

theorem addParentA_mem_tgt {l : List (Nat × List Nat)} {c p : Nat}
    {r : Nat × List Nat} (hm : r ∈ l) :
    (r.1 ≠ c → r ∈ addParentA l c p) ∧
      (r.1 = c → (r.1, p :: r.2) ∈ addParentA l c p) := by
  constructor
  · intro hne
    rw [addParentA]
    have : (if r.1 = c then (r.1, p :: r.2) else r) = r := if_neg hne
    exact this ▸ List.mem_map_of_mem _ hm
  · intro heq
    rw [addParentA]
    have : (if r.1 = c then (r.1, p :: r.2) else r) = (r.1, p :: r.2) :=
      if_pos heq
    exact this ▸ List.mem_map_of_mem _ hm

end StateSync

namespace StateSync

/-- The hashes stored in the destination. -/
def comKeys (st : SyncSched) : List Nat := st.committed.map Prod.fst

/-- The hashes currently known missing. -/
def reqKeys (st : SyncSched) : List Nat := st.requests.map Prod.fst

theorem keysUniqueA {α : Type} {l : List (Nat × α)}
    (hnd : (l.map Prod.fst).Nodup) {k : Nat} {a b : α}
    (ha : (k, a) ∈ l) (hb : (k, b) ∈ l) : a = b := by
  have h1 := findA_of_mem hnd ha
  have h2 := findA_of_mem hnd hb
  rw [h1] at h2
  exact Option.some.inj h2

/-- Scheduler invariant maintained by every driver run over a well-formed
source.  The last three fields are stated with an exception for the hash
`exc` whose children are still being folded in; `exc = none` gives the
plain invariant. -/
structure InvX (src : List (Nat × STNode)) (root origin : Nat)
    (exc : Option Nat) (st : SyncSched) : Prop where
  reqNodup : (reqKeys st).Nodup
  comNodup : (comKeys st).Nodup
  comCorrect : ∀ q ∈ st.committed, findA src q.1 = some q.2
  disj : ∀ k ∈ reqKeys st, k ∉ comKeys st
  rootCov : root ∈ comKeys st ∨ root ∈ reqKeys st
  comReach : ∀ q ∈ st.committed, Reach src root q.1
  reqReach : ∀ r ∈ st.requests, Reach src root r.1
  reqSrc : ∀ r ∈ st.requests, r.1 ∈ src.map Prod.fst
  parentsSound : ∀ r ∈ st.requests, ∀ p ∈ r.2,
      (p = origin ∧ r.1 = root ∧ origin ≠ zeroHash) ∨
        ∃ m, (p, m) ∈ st.committed ∧ r.1 ∈ STNode.children m
  rootOrigin : origin ≠ zeroHash → ∀ r ∈ st.requests, r.1 = root →
      origin ∈ r.2
  idxSound : ∀ e ∈ st.index,
      (e.1 = origin ∧ e.2 = root ∧ origin ≠ zeroHash ∧ root ∈ comKeys st) ∨
        ∃ m, (e.1, m) ∈ st.committed ∧ e.2 ∈ STNode.children m ∧
          e.2 ∈ comKeys st
  idxOrigin : origin ≠ zeroHash → root ∈ comKeys st → (origin, root) ∈ st.index
  closure : ∀ q ∈ st.committed, some q.1 ≠ exc → ∀ c ∈ STNode.children q.2,
      c ∈ comKeys st ∨ c ∈ reqKeys st
  parentsComplete : ∀ r ∈ st.requests, ∀ q ∈ st.committed, some q.1 ≠ exc →
      r.1 ∈ STNode.children q.2 → q.1 ∈ r.2
  idxComplete : ∀ q ∈ st.committed, some q.1 ≠ exc →
      ∀ c ∈ STNode.children q.2, c ∈ comKeys st → (q.1, c) ∈ st.index

/-- The plain invariant: no exception. -/
def Inv (src : List (Nat × STNode)) (root origin : Nat) (st : SyncSched) :
    Prop :=
  InvX src root origin none st

/-- What the child fold guarantees per revealed child: either the child is
already stored and its edge is indexed, or it is tracked as missing with
the revealing node among its parents. -/
def childDone (h : Nat) (st : SyncSched) (c : Nat) : Prop :=
  (c ∈ comKeys st → (h, c) ∈ st.index) ∧
    (c ∉ comKeys st → ∃ qs, (c, qs) ∈ st.requests ∧ h ∈ qs)

theorem addChild_committed (h : Nat) (st : SyncSched) (c : Nat) :
    (addChild h st c).committed = st.committed := by
  unfold addChild
  by_cases h1 : hasKeyA st.committed c
  · simp [h1]
  · by_cases h2 : hasKeyA st.requests c <;> simp [h1, h2]

theorem addChild_comKeys (h : Nat) (st : SyncSched) (c : Nat) :
    comKeys (addChild h st c) = comKeys st := by
  unfold comKeys
  rw [addChild_committed]

theorem addChild_index_mono {h : Nat} {st : SyncSched} {c : Nat}
    {e : Nat × Nat} (he : e ∈ st.index) : e ∈ (addChild h st c).index := by
  unfold addChild
  by_cases h1 : hasKeyA st.committed c
  · simp only [h1, if_true]
    exact List.mem_cons_of_mem _ he
  · by_cases h2 : hasKeyA st.requests c <;> simp [h1, h2] <;> exact he

theorem addChild_parents_mono {h : Nat} {st : SyncSched} {c k : Nat}
    {ps : List Nat} (hk : (k, ps) ∈ st.requests) :
    ∃ qs, (k, qs) ∈ (addChild h st c).requests ∧ ps ⊆ qs := by
  unfold addChild
  by_cases h1 : hasKeyA st.committed c
  · simp only [h1, if_true]
    exact ⟨ps, hk, List.Subset.refl ps⟩
  · by_cases h2 : hasKeyA st.requests c
    · simp only [h1, h2, Bool.false_eq_true, if_false, if_true]
      by_cases hkc : k = c
      · refine ⟨h :: ps, ?_, List.subset_cons_self h ps⟩
        have := (addParentA_mem_tgt (c := c) (p := h) hk).2 hkc
        simpa using this
      · refine ⟨ps, ?_, List.Subset.refl ps⟩
        exact (addParentA_mem_tgt (c := c) (p := h) hk).1 hkc
    · simp only [h1, h2, Bool.false_eq_true, if_false]
      exact ⟨ps, List.mem_cons_of_mem _ hk, List.Subset.refl ps⟩

theorem addChild_reqKeys_mono {h : Nat} {st : SyncSched} {c k : Nat}
    (hk : k ∈ reqKeys st) : k ∈ reqKeys (addChild h st c) := by
  unfold addChild
  by_cases h1 : hasKeyA st.committed c
  · simpa [h1, reqKeys] using hk
  · by_cases h2 : hasKeyA st.requests c
    · simp only [h1, h2, Bool.false_eq_true, if_false, if_true]
      show k ∈ (addParentA st.requests c h).map Prod.fst
      rw [addParentA_keys]
      exact hk
    · simp only [h1, h2, Bool.false_eq_true, if_false]
      show k ∈ ((c, [h]) :: st.requests).map Prod.fst
      rw [List.map_cons]
      exact List.mem_cons_of_mem _ hk

theorem childDone_addChild_mono {h c c2 : Nat} {st : SyncSched}
    (hd : childDone h st c) : childDone h (addChild h st c2) c := by
  constructor
  · intro hc
    rw [addChild_comKeys] at hc
    exact addChild_index_mono (hd.1 hc)
  · intro hc
    rw [addChild_comKeys] at hc
    obtain ⟨qs, hqs, hhh⟩ := hd.2 hc
    obtain ⟨qs2, hqs2, hsub⟩ := addChild_parents_mono hqs
    exact ⟨qs2, hqs2, hsub hhh⟩

theorem childDone_foldl_mono {h c : Nat} :
    ∀ (cs : List Nat) (st : SyncSched), childDone h st c →
      childDone h (cs.foldl (addChild h) st) c := by
  intro cs
  induction cs with
  | nil => intro st hd; exact hd
  | cons c2 cs ih =>
    intro st hd
    exact ih (addChild h st c2) (childDone_addChild_mono hd)

end StateSync

namespace StateSync

theorem midInv_case1 {src : List (Nat × STNode)} {root origin h : Nat}
    {n : STNode} {st : SyncSched} {c : Nat}
    (hnMem : (h, n) ∈ st.committed) (hc : c ∈ STNode.children n)
    (hcCom : c ∈ comKeys st)
    (hm : InvX src root origin (some h) st) :
    InvX src root origin (some h) { st with index := (h, c) :: st.index } := by
  refine ⟨hm.reqNodup, hm.comNodup, hm.comCorrect, hm.disj, hm.rootCov,
    hm.comReach, hm.reqReach, hm.reqSrc, hm.parentsSound, hm.rootOrigin,
    ?_, ?_, hm.closure, hm.parentsComplete, ?_⟩
  · intro e he
    rcases List.mem_cons.mp he with heq | hold
    · subst heq
      exact Or.inr ⟨n, hnMem, hc, hcCom⟩
    · exact hm.idxSound e hold
  · intro ho hr
    exact List.mem_cons_of_mem _ (hm.idxOrigin ho hr)
  · intro q hq hne c2 hc2 hcom
    exact List.mem_cons_of_mem _ (hm.idxComplete q hq hne c2 hc2 hcom)

theorem midInv_case2 {src : List (Nat × STNode)} {root origin h : Nat}
    {n : STNode} {st : SyncSched} {c : Nat}
    (hnMem : (h, n) ∈ st.committed) (hc : c ∈ STNode.children n)
    (hm : InvX src root origin (some h) st) :
    InvX src root origin (some h)
      { st with requests := addParentA st.requests c h } := by
  have hkeys : (addParentA st.requests c h).map Prod.fst =
      st.requests.map Prod.fst := addParentA_keys st.requests c h
  refine ⟨?_, hm.comNodup, hm.comCorrect, ?_, ?_, hm.comReach, ?_, ?_, ?_, ?_,
    hm.idxSound, hm.idxOrigin, ?_, ?_, hm.idxComplete⟩
  · show ((addParentA st.requests c h).map Prod.fst).Nodup
    rw [hkeys]
    exact hm.reqNodup
  · intro k hk
    have hk2 : k ∈ reqKeys st := by
      rw [reqKeys, ← hkeys]
      exact hk
    exact hm.disj k hk2
  · rcases hm.rootCov with hl | hr
    · exact Or.inl hl
    · refine Or.inr ?_
      show root ∈ (addParentA st.requests c h).map Prod.fst
      rw [hkeys]
      exact hr
  · intro r hr
    obtain ⟨r0, hr0, hfst, _⟩ := addParentA_mem_src hr
    exact hfst ▸ hm.reqReach r0 hr0
  · intro r hr
    obtain ⟨r0, hr0, hfst, _⟩ := addParentA_mem_src hr
    exact hfst ▸ hm.reqSrc r0 hr0
  · intro r hr p hp
    obtain ⟨r0, hr0, hfst, hcase⟩ := addParentA_mem_src hr
    rcases hcase with heq | ⟨hr0c, hr2⟩
    · subst heq
      exact hm.parentsSound r hr0 p hp
    · rw [hr2] at hp
      rcases List.mem_cons.mp hp with hph | hpold
      · subst hph
        refine Or.inr ⟨n, hnMem, ?_⟩
        rw [← hfst, hr0c]
        exact hc
      · have := hm.parentsSound r0 hr0 p hpold
        rw [hfst] at this
        exact this
  · intro ho r hr hroot
    obtain ⟨r0, hr0, hfst, hcase⟩ := addParentA_mem_src hr
    have horig : origin ∈ r0.2 := hm.rootOrigin ho r0 hr0 (by rw [hfst, hroot])
    rcases hcase with heq | ⟨_, hr2⟩
    · rw [heq]
      exact horig
    · rw [hr2]
      exact List.mem_cons_of_mem _ horig
  · intro q hq hne c2 hc2
    rcases hm.closure q hq hne c2 hc2 with hl | hr
    · exact Or.inl hl
    · refine Or.inr ?_
      show c2 ∈ (addParentA st.requests c h).map Prod.fst
      rw [hkeys]
      exact hr
  · intro r hr q hq hne hch
    obtain ⟨r0, hr0, hfst, hcase⟩ := addParentA_mem_src hr
    have hch0 : r0.1 ∈ STNode.children q.2 := by rw [hfst]; exact hch
    have := hm.parentsComplete r0 hr0 q hq hne hch0
    rcases hcase with heq | ⟨_, hr2⟩
    · rw [heq]
      exact this
    · rw [hr2]
      exact List.mem_cons_of_mem _ this

theorem midInv_case3 {src : List (Nat × STNode)} {root origin h : Nat}
    {n : STNode} {st : SyncSched} {c : Nat}
    (hclo : ∀ p ∈ src, ∀ d ∈ STNode.children p.2, d ∈ src.map Prod.fst)
    (hnMem : (h, n) ∈ st.committed) (hc : c ∈ STNode.children n)
    (hcCom : c ∉ comKeys st) (hcReq : c ∉ reqKeys st)
    (hm : InvX src root origin (some h) st) :
    InvX src root origin (some h)
      { st with requests := (c, [h]) :: st.requests } := by
  have hkeys : ((c, [h]) :: st.requests).map Prod.fst = c :: reqKeys st := by
    rw [List.map_cons]
    rfl
  refine ⟨?_, hm.comNodup, hm.comCorrect, ?_, ?_, hm.comReach, ?_, ?_, ?_, ?_,
    hm.idxSound, hm.idxOrigin, ?_, ?_, hm.idxComplete⟩
  · show (((c, [h]) :: st.requests).map Prod.fst).Nodup
    rw [hkeys]
    exact List.nodup_cons.mpr ⟨hcReq, hm.reqNodup⟩
  · intro k hk
    have : k ∈ c :: reqKeys st := by rw [← hkeys]; exact hk
    rcases List.mem_cons.mp this with heq | hold
    · subst heq
      exact hcCom
    · exact hm.disj k hold
  · rcases hm.rootCov with hl | hr
    · exact Or.inl hl
    · refine Or.inr ?_
      show root ∈ ((c, [h]) :: st.requests).map Prod.fst
      rw [hkeys]
      exact List.mem_cons_of_mem c hr
  · intro r hr
    rcases List.mem_cons.mp hr with heq | hold
    · subst heq
      exact Reach.step (hm.comReach (h, n) hnMem) (hm.comCorrect (h, n) hnMem)
        hc
    · exact hm.reqReach r hold
  · intro r hr
    rcases List.mem_cons.mp hr with heq | hold
    · subst heq
      have hsrcm : (h, n) ∈ src := findA_mem (hm.comCorrect (h, n) hnMem)
      exact hclo (h, n) hsrcm c hc
    · exact hm.reqSrc r hold
  · intro r hr p hp
    rcases List.mem_cons.mp hr with heq | hold
    · subst heq
      rcases List.mem_cons.mp hp with hph | hpn
      · subst hph
        exact Or.inr ⟨n, hnMem, hc⟩
      · exact absurd hpn (List.not_mem_nil p)
    · exact hm.parentsSound r hold p hp
  · intro ho r hr hroot
    rcases List.mem_cons.mp hr with heq | hold
    · subst heq
      exfalso
      rcases hm.rootCov with hl | hrt
      · rw [← hroot] at hl
        exact hcCom hl
      · rw [← hroot] at hrt
        exact hcReq hrt
    · exact hm.rootOrigin ho r hold hroot
  · intro q hq hne c2 hc2
    rcases hm.closure q hq hne c2 hc2 with hl | hr
    · exact Or.inl hl
    · refine Or.inr ?_
      show c2 ∈ ((c, [h]) :: st.requests).map Prod.fst
      rw [hkeys]
      exact List.mem_cons_of_mem c hr
  · intro r hr q hq hne hch
    rcases List.mem_cons.mp hr with heq | hold
    · subst heq
      exfalso
      rcases hm.closure q hq hne c hch with hl | hrq
      · exact hcCom hl
      · exact hcReq hrq
    · exact hm.parentsComplete r hold q hq hne hch

theorem addChild_midInv {src : List (Nat × STNode)} {root origin h : Nat}
    {n : STNode} {st : SyncSched} {c : Nat}
    (hclo : ∀ p ∈ src, ∀ d ∈ STNode.children p.2, d ∈ src.map Prod.fst)
    (hnMem : (h, n) ∈ st.committed) (hc : c ∈ STNode.children n)
    (hm : InvX src root origin (some h) st) :
    InvX src root origin (some h) (addChild h st c) ∧
      childDone h (addChild h st c) c := by
  unfold addChild
  by_cases h1 : hasKeyA st.committed c
  · rw [if_pos h1]
    refine ⟨midInv_case1 hnMem hc (hasKeyA_iff.mp h1) hm, ?_, ?_⟩
    · intro _
      exact List.mem_cons_self _ _
    · intro hcon
      exact absurd (hasKeyA_iff.mp h1) hcon
  · rw [if_neg h1]
    have h1f : c ∉ comKeys st := by
      intro hcon
      exact h1 (hasKeyA_iff.mpr hcon)
    by_cases h2 : hasKeyA st.requests c
    · rw [if_pos h2]
      refine ⟨midInv_case2 hnMem hc hm, ?_, ?_⟩
      · intro hcon
        exact absurd hcon h1f
      · intro _
        have hck : c ∈ reqKeys st := hasKeyA_iff.mp h2
        obtain ⟨r, hr, hr1⟩ := List.mem_map.mp hck
        refine ⟨h :: r.2, ?_, List.mem_cons_self _ _⟩
        have := (addParentA_mem_tgt (c := c) (p := h) hr).2 hr1
        rw [hr1] at this
        exact this
    · rw [if_neg h2]
      have h2f : c ∉ reqKeys st := by
        intro hcon
        exact h2 (hasKeyA_iff.mpr hcon)
      refine ⟨midInv_case3 hclo hnMem hc h1f h2f hm, ?_, ?_⟩
      · intro hcon
        exact absurd hcon h1f
      · intro _
        exact ⟨[h], List.mem_cons_self _ _, List.mem_cons_self h []⟩

theorem foldl_addChild_committed (h : Nat) :
    ∀ (cs : List Nat) (st : SyncSched),
      (cs.foldl (addChild h) st).committed = st.committed := by
  intro cs
  induction cs with
  | nil => intro st; rfl
  | cons c cs ih =>
    intro st
    rw [List.foldl_cons, ih, addChild_committed]

theorem foldl_addChild_midInv {src : List (Nat × STNode)}
    {root origin h : Nat} {n : STNode}
    (hclo : ∀ p ∈ src, ∀ d ∈ STNode.children p.2, d ∈ src.map Prod.fst) :
    ∀ (cs : List Nat) (st : SyncSched),
      (∀ c ∈ cs, c ∈ STNode.children n) → (h, n) ∈ st.committed →
      InvX src root origin (some h) st →
      InvX src root origin (some h) (cs.foldl (addChild h) st) ∧
        ∀ c ∈ cs, childDone h (cs.foldl (addChild h) st) c := by
  intro cs
  induction cs with
  | nil =>
    intro st _ _ hm
    exact ⟨hm, fun c hcm => absurd hcm (List.not_mem_nil c)⟩
  | cons c cs ih =>
    intro st hcs hmem hm
    have hstep := addChild_midInv hclo hmem
      (hcs c (List.mem_cons_self c cs)) hm
    have hmem2 : (h, n) ∈ (addChild h st c).committed := by
      rw [addChild_committed]
      exact hmem
    obtain ⟨hmid, hrest⟩ := ih (addChild h st c)
      (fun d hd => hcs d (List.mem_cons_of_mem c hd)) hmem2 hstep.1
    refine ⟨hmid, ?_⟩
    intro d hd
    rcases List.mem_cons.mp hd with heq | hdm
    · subst heq
      exact childDone_foldl_mono cs (addChild h st d) hstep.2
    · exact hrest d hdm

end StateSync

namespace StateSync

theorem commit_start_midInv {src : List (Nat × STNode)} {root origin h : Nat}
    {ps : List Nat} {n : STNode} {st : SyncSched}
    (hInv : Inv src root origin st)
    (hreq : (h, ps) ∈ st.requests)
    (hsrc : findA src h = some n) :
    InvX src root origin (some h)
      { requests := eraseKeyA st.requests h
        committed := (h, n) :: st.committed
        index := ps.map (fun p => (p, h)) ++ st.index } := by
  have hreqk : h ∈ reqKeys st := by
    exact List.mem_map_of_mem Prod.fst hreq
  have hnotcom : h ∉ comKeys st := hInv.disj h hreqk
  refine ⟨?_, ?_, ?_, ?_, ?_, ?_, ?_, ?_, ?_, ?_, ?_, ?_, ?_, ?_, ?_⟩
  · show ((eraseKeyA st.requests h).map Prod.fst).Nodup
    exact List.Nodup.sublist
      (List.Sublist.map Prod.fst (eraseKeyA_sublist st.requests h))
      hInv.reqNodup
  · show (h :: comKeys st).Nodup
    exact List.nodup_cons.mpr ⟨hnotcom, hInv.comNodup⟩
  · intro q hq
    rcases List.mem_cons.mp hq with heq | hold
    · subst heq
      exact hsrc
    · exact hInv.comCorrect q hold
  · intro k hk
    obtain ⟨hk2, hkne⟩ := eraseKeyA_keys_mem.mp hk
    intro hcon
    rcases List.mem_cons.mp hcon with heq | hold
    · exact hkne heq
    · exact hInv.disj k hk2 hold
  · rcases hInv.rootCov with hl | hr
    · exact Or.inl (List.mem_cons_of_mem h hl)
    · by_cases hrh : root = h
      · exact Or.inl (hrh ▸ List.mem_cons_self h (comKeys st))
      · exact Or.inr (eraseKeyA_keys_mem.mpr ⟨hr, hrh⟩)
  · intro q hq
    rcases List.mem_cons.mp hq with heq | hold
    · subst heq
      exact hInv.reqReach (h, ps) hreq
    · exact hInv.comReach q hold
  · intro r hr
    exact hInv.reqReach r (eraseKeyA_mem.mp hr).1
  · intro r hr
    exact hInv.reqSrc r (eraseKeyA_mem.mp hr).1
  · intro r hr p hp
    rcases hInv.parentsSound r (eraseKeyA_mem.mp hr).1 p hp with hl | ⟨m, hm1, hm2⟩
    · exact Or.inl hl
    · exact Or.inr ⟨m, List.mem_cons_of_mem _ hm1, hm2⟩
  · intro ho r hr hroot
    exact hInv.rootOrigin ho r (eraseKeyA_mem.mp hr).1 hroot
  · intro e he
    rcases List.mem_append.mp he with hmap | hold
    · obtain ⟨p, hp, hpe⟩ := List.mem_map.mp hmap
      rcases hInv.parentsSound (h, ps) hreq p hp with ⟨hpo, hhr, ho⟩ | ⟨m, hm1, hm2⟩
      · refine Or.inl ⟨?_, ?_, ho, ?_⟩
        · rw [← hpe]
          exact hpo
        · rw [← hpe]
          exact hhr
        · rw [← hhr]
          exact List.mem_cons_self h (comKeys st)
      · have he1 : e.1 = p := by rw [← hpe]
        have he2 : e.2 = h := by rw [← hpe]
        refine Or.inr ⟨m, ?_, ?_, ?_⟩
        · rw [he1]
          exact List.mem_cons_of_mem _ hm1
        · rw [he2]
          exact hm2
        · rw [he2]
          exact List.mem_cons_self h (comKeys st)
    · rcases hInv.idxSound e hold with ⟨h1, h2, h3, h4⟩ | ⟨m, hm1, hm2, hm3⟩
      · exact Or.inl ⟨h1, h2, h3, List.mem_cons_of_mem h h4⟩
      · exact Or.inr ⟨m, List.mem_cons_of_mem _ hm1, hm2,
          List.mem_cons_of_mem h hm3⟩
  · intro ho hroot
    by_cases hrh : root = h
    · have horigps : origin ∈ ps := hInv.rootOrigin ho (h, ps) hreq hrh.symm
      refine List.mem_append_left _ ?_
      rw [hrh]
      exact List.mem_map_of_mem (fun p => (p, h)) horigps
    · have hroot2 : root ∈ comKeys st := by
        rcases List.mem_cons.mp hroot with heq | hold
        · exact absurd heq hrh
        · exact hold
      exact List.mem_append_right _ (hInv.idxOrigin ho hroot2)
  · intro q hq hne c hcc
    have hq2 : q ∈ st.committed := by
      rcases List.mem_cons.mp hq with heq | hold
      · exfalso
        apply hne
        rw [heq]
      · exact hold
    rcases hInv.closure q hq2 (by simp) c hcc with hl | hr
    · exact Or.inl (List.mem_cons_of_mem h hl)
    · by_cases hch : c = h
      · exact Or.inl (hch ▸ List.mem_cons_self h (comKeys st))
      · exact Or.inr (eraseKeyA_keys_mem.mpr ⟨hr, hch⟩)
  · intro r hr q hq hne hch
    have hq2 : q ∈ st.committed := by
      rcases List.mem_cons.mp hq with heq | hold
      · exfalso
        apply hne
        rw [heq]
      · exact hold
    exact hInv.parentsComplete r (eraseKeyA_mem.mp hr).1 q hq2 (by simp) hch
  · intro q hq hne c hcc hcom
    have hq2 : q ∈ st.committed := by
      rcases List.mem_cons.mp hq with heq | hold
      · exfalso
        apply hne
        rw [heq]
      · exact hold
    rcases List.mem_cons.mp hcom with hceq | hcold
    · have hceq2 : c = h := hceq
      have hhch : (h, ps).1 ∈ STNode.children q.2 := by
        show h ∈ STNode.children q.2
        rw [← hceq2]
        exact hcc
      have hqps : q.1 ∈ ps :=
        hInv.parentsComplete (h, ps) hreq q hq2 (by simp) hhch
      refine List.mem_append_left _ ?_
      have hmm : (q.1, h) ∈ ps.map (fun p => (p, h)) :=
        List.mem_map_of_mem (fun p => (p, h)) hqps
      rw [hceq2]
      exact hmm
    · exact List.mem_append_right _
        (hInv.idxComplete q hq2 (by simp) c hcc hcold)

end StateSync

namespace StateSync

theorem commitNode_inv {src : List (Nat × STNode)} {root origin h : Nat}
    {ps : List Nat} {n : STNode} {st : SyncSched}
    (hclo : ∀ p ∈ src, ∀ d ∈ STNode.children p.2, d ∈ src.map Prod.fst)
    (hInv : Inv src root origin st)
    (hreq : (h, ps) ∈ st.requests)
    (hsrc : findA src h = some n) :
    Inv src root origin (commitNode st h ps n) := by
  show Inv src root origin
    (n.children.foldl (addChild h)
      { requests := eraseKeyA st.requests h
        committed := (h, n) :: st.committed
        index := ps.map (fun p => (p, h)) ++ st.index })
  have hstart := commit_start_midInv hInv hreq hsrc
  have hmemstart : (h, n) ∈
      ({ requests := eraseKeyA st.requests h
         committed := (h, n) :: st.committed
         index := ps.map (fun p => (p, h)) ++ st.index } : SyncSched).committed :=
    List.mem_cons_self (h, n) st.committed
  obtain ⟨hmid, hdone⟩ := foldl_addChild_midInv hclo n.children _
    (fun c hcm => hcm) hmemstart hstart
  have hmemF : (h, n) ∈ (n.children.foldl (addChild h)
      { requests := eraseKeyA st.requests h
        committed := (h, n) :: st.committed
        index := ps.map (fun p => (p, h)) ++ st.index }).committed := by
    rw [foldl_addChild_committed]
    exact hmemstart
  set stF := n.children.foldl (addChild h)
      { requests := eraseKeyA st.requests h
        committed := (h, n) :: st.committed
        index := ps.map (fun p => (p, h)) ++ st.index } with hstF
  have hkeyval : ∀ q ∈ stF.committed, q.1 = h → q.2 = n := by
    intro q hq hq1
    have hq3 : (h, q.2) ∈ stF.committed := by
      have : q = (h, q.2) := Prod.ext hq1 rfl
      rw [← this]
      exact hq
    exact keysUniqueA hmid.comNodup hq3 hmemF
  refine ⟨hmid.reqNodup, hmid.comNodup, hmid.comCorrect, hmid.disj,
    hmid.rootCov, hmid.comReach, hmid.reqReach, hmid.reqSrc,
    hmid.parentsSound, hmid.rootOrigin, hmid.idxSound, hmid.idxOrigin,
    ?_, ?_, ?_⟩
  · intro q hq _ c hcc
    by_cases hq1 : q.1 = h
    · have hq2 := hkeyval q hq hq1
      rw [hq2] at hcc
      rcases (hdone c hcc).2 with h2
      by_cases hcom : c ∈ comKeys stF
      · exact Or.inl hcom
      · obtain ⟨qs, hqs, _⟩ := h2 hcom
        exact Or.inr (List.mem_map_of_mem Prod.fst hqs)
    · exact hmid.closure q hq (by simp [hq1]) c hcc
  · intro r hr q hq _ hch
    by_cases hq1 : q.1 = h
    · have hq2 := hkeyval q hq hq1
      rw [hq2] at hch
      have hrk : r.1 ∈ reqKeys stF := List.mem_map_of_mem Prod.fst hr
      have hrnotcom : r.1 ∉ comKeys stF := hmid.disj r.1 hrk
      obtain ⟨qs, hqs, hhqs⟩ := (hdone r.1 hch).2 hrnotcom
      have hr2 : (r.1, r.2) ∈ stF.requests := by
        have : r = (r.1, r.2) := rfl
        rw [← this]
        exact hr
      have : r.2 = qs := keysUniqueA hmid.reqNodup hr2 hqs
      rw [hq1, this]
      exact hhqs
    · exact hmid.parentsComplete r hr q hq (by simp [hq1]) hch
  · intro q hq _ c hcc hcom
    by_cases hq1 : q.1 = h
    · have hq2 := hkeyval q hq hq1
      rw [hq2] at hcc
      have := (hdone c hcc).1 hcom
      rw [hq1]
      exact this
    · exact hmid.idxComplete q hq (by simp [hq1]) c hcc hcom

end StateSync

namespace StateSync

theorem processResults_inv {src : List (Nat × STNode)} {root origin : Nat}
    (hclo : ∀ p ∈ src, ∀ d ∈ STNode.children p.2, d ∈ src.map Prod.fst)
    (hOf : STNode → Nat) :
    ∀ (results : List (Nat × STNode)) (st : SyncSched) (i : Nat),
      Inv src root origin st →
      (∀ r ∈ results, findA src r.1 = some r.2) →
      Inv src root origin (processResults hOf st results i).2 := by
  intro results
  induction results with
  | nil =>
    intro st i hInv _
    exact hInv
  | cons r rest ih =>
    intro st i hInv hres
    obtain ⟨h, n⟩ := r
    rw [processResults]
    cases hfind : findA st.requests h with
    | none => exact hInv
    | some ps =>
      show Inv src root origin
        (if hOf n = h then
            processResults hOf (commitNode st h ps n) rest (i + 1)
          else (some i, st)).2
      by_cases hv : hOf n = h
      · rw [if_pos hv]
        apply ih _ (i + 1)
        · exact commitNode_inv hclo hInv (findA_mem hfind)
            (hres (h, n) (List.mem_cons_self _ _))
        · intro r2 hr2
          exact hres r2 (List.mem_cons_of_mem _ hr2)
      · rw [if_neg hv]
        exact hInv

theorem selResults_src {src : List (Nat × STNode)} {st : SyncSched}
    {sel : List Nat} :
    ∀ r ∈ selResults src st sel, findA src r.1 = some r.2 := by
  intro r hr
  unfold selResults at hr
  obtain ⟨h, _, hmap⟩ := List.mem_filterMap.mp hr
  cases hfind : findA src h with
  | none =>
    rw [hfind] at hmap
    exact absurd hmap (by simp)
  | some n =>
    rw [hfind] at hmap
    simp only [Option.map_some'] at hmap
    rw [← Option.some.inj hmap]
    exact hfind

theorem driveStep_inv {src : List (Nat × STNode)} {root origin : Nat}
    (hclo : ∀ p ∈ src, ∀ d ∈ STNode.children p.2, d ∈ src.map Prod.fst)
    (hOf : STNode → Nat) {st : SyncSched} (sel : List Nat)
    (hInv : Inv src root origin st) :
    Inv src root origin (driveStep src hOf st sel) := by
  unfold driveStep Process
  exact processResults_inv hclo hOf (selResults src st sel) st 0 hInv
    selResults_src

theorem newStateSync_inv {src : List (Nat × STNode)} {hOf : STNode → Nat}
    {root : Nat} (origin : Nat) (hwf : srcWF src hOf root) :
    Inv src root origin (NewStateSync root origin) := by
  obtain ⟨hnd, hhash, hclo, hroot, hne⟩ := hwf
  unfold NewStateSync
  rw [if_neg hne]
  have hreqkeys : ∀ (ps0 : List Nat),
      ([(root, ps0)].map Prod.fst) = [root] := by
    intro ps0
    rfl
  refine ⟨?_, ?_, ?_, ?_, ?_, ?_, ?_, ?_, ?_, ?_, ?_, ?_, ?_, ?_, ?_⟩
  · show ([((root, if origin = zeroHash then [] else [origin]))].map
      Prod.fst).Nodup
    rw [hreqkeys]
    exact List.nodup_singleton root
  · exact List.nodup_nil
  · intro q hq
    exact absurd hq (List.not_mem_nil q)
  · intro k _ hcon
    exact absurd hcon (List.not_mem_nil k)
  · refine Or.inr ?_
    show root ∈ [((root, if origin = zeroHash then [] else [origin]))].map
      Prod.fst
    rw [hreqkeys]
    exact List.mem_singleton.mpr rfl
  · intro q hq
    exact absurd hq (List.not_mem_nil q)
  · intro r hr
    have : r = (root, if origin = zeroHash then [] else [origin]) :=
      List.mem_singleton.mp hr
    rw [this]
    exact Reach.base
  · intro r hr
    have : r = (root, if origin = zeroHash then [] else [origin]) :=
      List.mem_singleton.mp hr
    rw [this]
    exact hroot
  · intro r hr p hp
    have hre : r = (root, if origin = zeroHash then [] else [origin]) :=
      List.mem_singleton.mp hr
    rw [hre] at hp
    by_cases ho : origin = zeroHash
    · rw [if_pos ho] at hp
      exact absurd hp (List.not_mem_nil p)
    · rw [if_neg ho] at hp
      have : p = origin := List.mem_singleton.mp hp
      refine Or.inl ⟨this, ?_, ho⟩
      rw [hre]
  · intro ho r hr _
    have hre : r = (root, if origin = zeroHash then [] else [origin]) :=
      List.mem_singleton.mp hr
    rw [hre]
    show origin ∈ (root, if origin = zeroHash then [] else [origin]).2
    rw [if_neg ho]
    exact List.mem_singleton.mpr rfl
  · intro e he
    exact absurd he (List.not_mem_nil e)
  · intro _ hroot2
    exact absurd hroot2 (List.not_mem_nil root)
  · intro q hq
    exact absurd hq (List.not_mem_nil q)
  · intro r _ q hq
    exact absurd hq (List.not_mem_nil q)
  · intro q hq
    exact absurd hq (List.not_mem_nil q)

theorem runSync_inv {src : List (Nat × STNode)} {hOf : STNode → Nat}
    {root : Nat} (origin : Nat) (hwf : srcWF src hOf root)
    (sels : List (List Nat)) :
    Inv src root origin (runSync src hOf root origin sels) := by
  unfold runSync
  have hclo := hwf.2.2.1
  have hbase := newStateSync_inv origin hwf
  generalize NewStateSync root origin = st0 at hbase
  induction sels generalizing st0 with
  | nil => exact hbase
  | cons sel sels ih =>
    rw [List.foldl_cons]
    exact ih (driveStep src hOf st0 sel) (driveStep_inv hclo hOf sel hbase)

end StateSync

namespace StateSync

theorem complete_of_done {src : List (Nat × STNode)} {root origin : Nat}
    {st : SyncSched} (hInv : Inv src root origin st)
    (hdone : st.requests = []) :
    ∀ k, Reach src root k → k ∈ comKeys st := by
  intro k hk
  induction hk with
  | base =>
    rcases hInv.rootCov with hl | hr
    · exact hl
    · rw [reqKeys, hdone] at hr
      exact absurd hr (List.not_mem_nil root)
  | @step p m c hp hfind hch ih =>
    obtain ⟨q, hq, hq1⟩ := List.mem_map.mp ih
    have hqsrc : findA src q.1 = some q.2 := hInv.comCorrect q hq
    rw [hq1, hfind] at hqsrc
    have hq2 : q.2 = m := (Option.some.inj hqsrc).symm
    rcases hInv.closure q hq (by simp) c (by rw [hq2]; exact hch) with hl | hr
    · exact hl
    · rw [reqKeys, hdone] at hr
      exact absurd hr (List.not_mem_nil c)

theorem agree_of_done {src : List (Nat × STNode)} {root origin : Nat}
    {st : SyncSched} (hInv : Inv src root origin st)
    (hdone : st.requests = []) :
    ∀ k, Reach src root k → findA st.committed k = findA src k := by
  intro k hk
  obtain ⟨q, hq, hq1⟩ := List.mem_map.mp (complete_of_done hInv hdone k hk)
  have hqm : (k, q.2) ∈ st.committed := by
    have : q = (k, q.2) := Prod.ext hq1 rfl
    rw [← this]
    exact hq
  rw [findA_of_mem hInv.comNodup hqm]
  have := hInv.comCorrect q hq
  rw [hq1] at this
  exact this.symm

theorem readAccount_agree {src : List (Nat × STNode)} {root : Nat}
    {st : SyncSched}
    (hagree : ∀ k, Reach src root k → findA st.committed k = findA src k) :
    ∀ (path : List Nat) (k : Nat), Reach src root k →
      readAccount (findA st.committed) path k =
        readAccount (findA src) path k := by
  intro path
  induction path with
  | nil =>
    intro k hk
    rw [readAccount, readAccount, hagree k hk]
    cases hsk : findA src k with
    | none => rfl
    | some node =>
      cases node with
      | internal cs => rfl
      | code bs => rfl
      | account b nn ch =>
        have hch : Reach src root ch :=
          Reach.step hk hsk (by simp [STNode.children])
        show (match findA st.committed ch with
              | some (STNode.code bs) => some (b, nn, bs)
              | _ => none) =
            (match findA src ch with
              | some (STNode.code bs) => some (b, nn, bs)
              | _ => none)
        rw [hagree ch hch]
  | cons i rest ih =>
    intro k hk
    rw [readAccount, readAccount, hagree k hk]
    cases hsk : findA src k with
    | none => rfl
    | some node =>
      cases node with
      | account b nn ch => rfl
      | code bs => rfl
      | internal cs =>
        show (match cs[i]? with
              | some c => readAccount (findA st.committed) rest c
              | none => none) =
            (match cs[i]? with
              | some c => readAccount (findA src) rest c
              | none => none)
        cases hgi : cs[i]? with
        | none => rfl
        | some c =>
          have hcm : c ∈ STNode.children (STNode.internal cs) := by
            show c ∈ cs
            exact List.getElem?_mem hgi
          exact ih c (Reach.step hk hsk hcm)

theorem index_iff_of_done {src : List (Nat × STNode)} {root origin : Nat}
    {st : SyncSched} (hInv : Inv src root origin st)
    (hdone : st.requests = []) (p c : Nat) :
    (p, c) ∈ st.index ↔
      ((∃ m, Reach src root p ∧ findA src p = some m ∧
          c ∈ STNode.children m) ∨
        (origin ≠ zeroHash ∧ p = origin ∧ c = root)) := by
  constructor
  · intro he
    rcases hInv.idxSound (p, c) he with ⟨h1, h2, h3, _⟩ | ⟨m, hm1, hm2, _⟩
    · exact Or.inr ⟨h3, h1, h2⟩
    · exact Or.inl ⟨m, hInv.comReach (p, m) hm1, hInv.comCorrect (p, m) hm1,
        hm2⟩
  · intro hcase
    rcases hcase with ⟨m, hp, hfind, hch⟩ | ⟨ho, hp, hc⟩
    · have hpm : (p, m) ∈ st.committed := by
        apply findA_mem
        rw [agree_of_done hInv hdone p hp]
        exact hfind
      have hcreach : Reach src root c := Reach.step hp hfind hch
      have hccom : c ∈ comKeys st := complete_of_done hInv hdone c hcreach
      exact hInv.idxComplete (p, m) hpm (by simp) c hch hccom
    · rw [hp, hc]
      exact hInv.idxOrigin ho
        (complete_of_done hInv hdone root Reach.base)

theorem missing_zero_empty {st : SyncSched} (h : Missing st 0 = []) :
    st.requests = [] := by
  unfold Missing at h
  rw [if_pos rfl] at h
  exact List.map_eq_nil_iff.mp h

end StateSync

/-- C1: for every well-formed source account tree, every origin, and every
driver run delivering batches of any size and order (the selections
`sels`), once the synchronizer reports nothing missing the destination
store agrees with the source on every reachable node — hence every account
read (balance, nonce, code) along any path from the root is identical — and
the emitted parent-reference index entries are exactly the edges a full
offline iteration of the resulting tree yields, plus the one origin-to-root
entry when a non-zero origin was supplied to `NewStateSync`. -/
theorem c1_state_sync_reconstruction (src : List (Nat × StateSync.STNode))
    (hOf : StateSync.STNode → Nat) (root origin : Nat)
    (sels : List (List Nat))
    (hwf : StateSync.srcWF src hOf root)
    (hdone : StateSync.Missing
      (StateSync.runSync src hOf root origin sels) 0 = []) :
    (∀ path, StateSync.readAccount
        (StateSync.findA
          (StateSync.runSync src hOf root origin sels).committed) path root =
      StateSync.readAccount (StateSync.findA src) path root) ∧
    (∀ k, StateSync.Reach src root k →
      StateSync.findA
          (StateSync.runSync src hOf root origin sels).committed k =
        StateSync.findA src k) ∧
    (∀ p c, (p, c) ∈ (StateSync.runSync src hOf root origin sels).index ↔
      ((∃ m, StateSync.Reach src root p ∧
          StateSync.findA src p = some m ∧ c ∈ StateSync.STNode.children m) ∨
        (origin ≠ StateSync.zeroHash ∧ p = origin ∧ c = root))) := by
  have hInv := StateSync.runSync_inv origin hwf sels
  have hreqs := StateSync.missing_zero_empty hdone
  have hagree := StateSync.agree_of_done hInv hreqs
  refine ⟨?_, hagree, ?_⟩
  · intro path
    exact StateSync.readAccount_agree hagree path root StateSync.Reach.base
  · intro p c
    exact StateSync.index_iff_of_done hInv hreqs p c

namespace StateSync

/-- A concrete three-node source tree for the C1 witness: an internal root
over one account that references one code leaf. -/
def wSrc : List (Nat × STNode) :=
  [(10, STNode.internal [20]), (20, STNode.account 5 7 30),
    (30, STNode.code [9])]

/-- The hash oracle of the witness source. -/
def wHOf : STNode → Nat
  | STNode.internal _ => 10
  | STNode.account _ _ _ => 20
  | STNode.code _ => 30

end StateSync

/-- C1 witness: the three-node tree synced in three single-result batches
with origin 99 satisfies the hypotheses, and the conclusions follow by the
theorem. -/
theorem c1_state_sync_reconstruction_witness :
    StateSync.srcWF StateSync.wSrc StateSync.wHOf 10 ∧
      StateSync.Missing
        (StateSync.runSync StateSync.wSrc StateSync.wHOf 10 99
          [[10], [20], [30]]) 0 = [] ∧
      ((∀ path, StateSync.readAccount
          (StateSync.findA
            (StateSync.runSync StateSync.wSrc StateSync.wHOf 10 99
              [[10], [20], [30]]).committed) path 10 =
        StateSync.readAccount (StateSync.findA StateSync.wSrc) path 10) ∧
      (∀ k, StateSync.Reach StateSync.wSrc 10 k →
        StateSync.findA
            (StateSync.runSync StateSync.wSrc StateSync.wHOf 10 99
              [[10], [20], [30]]).committed k =
          StateSync.findA StateSync.wSrc k) ∧
      (∀ p c, (p, c) ∈ (StateSync.runSync StateSync.wSrc StateSync.wHOf 10 99
            [[10], [20], [30]]).index ↔
        ((∃ m, StateSync.Reach StateSync.wSrc 10 p ∧
            StateSync.findA StateSync.wSrc p = some m ∧
            c ∈ StateSync.STNode.children m) ∨
          (99 ≠ StateSync.zeroHash ∧ p = 99 ∧ c = 10)))) :=
  ⟨by decide, by decide,
    c1_state_sync_reconstruction StateSync.wSrc StateSync.wHOf 10 99
      [[10], [20], [30]] (by decide) (by decide)⟩
